import Mathlib

/-!
Shallow embedding of `plugins/filter/github_release_version.py`: the version
parser (`version_name_matcher` / `version_key_matcher` regexes), the stable
ascending sort, the decorator filter, and the four match strategies
(`match_latest`, `match_eq`, `match_gte`, `match_lte`), together with the
driving entry point `github_release_version`.

Conventions of the embedding:
- Python dicts produced by `sort_versions_ascending` become the structure
  `VersionRecord`; `re.Match` objects of `version_key_matcher` become
  `PartialKey` (named optional fields for the named capture groups).
- Exceptions (`AnsibleFilterError`) become `Except String`, carrying the
  exact message text the source builds with f-strings.
- Python strings are modelled as `List Char` where scanning is needed.
  Regex `$` matches at the end of the string or just before one final
  newline, and `.` never matches a newline; labels are therefore matched
  after stripping one trailing newline, and a decorator group may not
  contain a newline.  `int()` on a digit group is `digitsToNat`.
- While-loops that advance an index through a list become
  `takeWhile`/`dropWhile` stages over the same list, one stage per loop,
  keeping each loop's condition verbatim.
-/

namespace GithubReleaseVersion

/-- One parsed version, the dict built in `sort_versions_ascending`
(line 69-77 of the source): keys `stripped_version_label`, `full_label`,
`major`, `minor`, `point`, `decorator`. -/
structure VersionRecord where
  stripped_version_label : String
  full_label : String
  major : Nat
  minor : Nat
  point : Nat
  decorator : String
deriving DecidableEq, Repr

/-- A successful `version_key_matcher.fullmatch`: the named groups `major`,
`minor`, `point`, `decorator`, each `None` when its optional group did not
participate. -/
structure PartialKey where
  major : Nat
  minor : Option Nat
  point : Option Nat
  decorator : Option String
deriving DecidableEq, Repr

/-- Python `int()` over a non-empty digit group. -/
def digitsToNat (ds : List Char) : Nat :=
  ds.foldl (fun n c => 10 * n + (c.toNat - 48)) 0

/-- Attempt of `version_name_matcher`, the regex
`(?P<major>\d+)\.(?P<minor>\d+)\.(?P<point>\d+)(-(?P<decorator>.+))?$`,
at one fixed start position: the whole remaining suffix must be
digits `.` digits `.` digits, optionally `-` plus a non-empty decorator
running to the end.  Greedy `\d+` groups are maximal digit runs (a shorter
run would leave a digit where a literal `.`/`-`/end is required, so
backtracking never helps).  Returns the captured groups. -/
def matchNameAt (cs : List Char) : Option (Nat × Nat × Nat × String) :=
  let s1 := cs.span Char.isDigit
  if s1.1 = [] then none else
  match s1.2 with
  | '.' :: r2 =>
    let s2 := r2.span Char.isDigit
    if s2.1 = [] then none else
    match s2.2 with
    | '.' :: r4 =>
      let s3 := r4.span Char.isDigit
      if s3.1 = [] then none else
      match s3.2 with
      | [] => some (digitsToNat s1.1, digitsToNat s2.1, digitsToNat s3.1, "")
      | '-' :: ds =>
        if ds = [] ∨ ds.any (fun c => c = '\n') then none
        else some (digitsToNat s1.1, digitsToNat s2.1, digitsToNat s3.1, String.mk ds)
      | _ => none
    | _ => none
  | _ => none

/-- `re.search` of `version_name_matcher`: try every start position from the
left; the match, when it exists, always extends to the end of the (newline
stripped) string because of the trailing `$`.  Returns the matched substring
(`m.group()`) together with the captured groups. -/
def searchName : List Char → Option (List Char × (Nat × Nat × Nat × String))
  | [] => none
  | c :: rest =>
    match matchNameAt (c :: rest) with
    | some g => some (c :: rest, g)
    | none => searchName rest

/-- `$` may match just before one final newline: strip it before scanning. -/
def stripTrailingNewline (cs : List Char) : List Char :=
  match cs.getLast? with
  | some c => if c = '\n' then cs.dropLast else cs
  | none => cs

/-- The per-label body of the loop in `sort_versions_ascending`
(source lines 64-77): `version_name_matcher.search` plus the dict build.
`none` models the regex failing to match (the `AnsibleFilterError` branch). -/
def parse_version (label : String) : Option VersionRecord :=
  match searchName (stripTrailingNewline label.data) with
  | none => none
  | some (matched, (ma, mi, pt, dec)) =>
    some { stripped_version_label := String.mk matched
           full_label := label
           major := ma
           minor := mi
           point := pt
           decorator := dec }

/-- `version_key_matcher.fullmatch`, the regex
`^(?P<major>\d+)(\.(?P<minor>\d+)(\.(?P<point>\d+)(-(?P<decorator>.+))?)?)?$`:
the whole key string must be 1, 2 or 3 dot-separated digit groups, the last
optionally followed by `-` and a non-empty decorator.  No leading `v` is
accepted anywhere: the pattern begins with `\d+`. -/
def parse_key (s : String) : Option PartialKey :=
  let s1 := s.data.span Char.isDigit
  if s1.1 = [] then none else
  match s1.2 with
  | [] => some { major := digitsToNat s1.1, minor := none, point := none, decorator := none }
  | '.' :: r2 =>
    let s2 := r2.span Char.isDigit
    if s2.1 = [] then none else
    match s2.2 with
    | [] => some { major := digitsToNat s1.1, minor := some (digitsToNat s2.1),
                   point := none, decorator := none }
    | '.' :: r4 =>
      let s3 := r4.span Char.isDigit
      if s3.1 = [] then none else
      match s3.2 with
      | [] => some { major := digitsToNat s1.1, minor := some (digitsToNat s2.1),
                     point := some (digitsToNat s3.1), decorator := none }
      | '-' :: ds =>
        if ds = [] ∨ ds.any (fun c => c = '\n') then none
        else some { major := digitsToNat s1.1, minor := some (digitsToNat s2.1),
                    point := some (digitsToNat s3.1), decorator := some (String.mk ds) }
      | _ => none
    | _ => none
  | _ => none

/-- The sort key comparison behind
`sorted(version_info, key=itemgetter("major", "minor", "point"))`:
lexicographic `<=` on the `(major, minor, point)` triple. -/
def keyLe (a b : VersionRecord) : Bool :=
  decide (a.major < b.major) ||
    (a.major == b.major &&
      (decide (a.minor < b.minor) || (a.minor == b.minor && decide (a.point ≤ b.point))))

/-- Stable insertion of one record: it goes in front of the first element
whose key is not smaller, so an element keeps its place relative to
equal-key elements inserted earlier. -/
def insertSorted (x : VersionRecord) : List VersionRecord → List VersionRecord
  | [] => [x]
  | y :: ys => if keyLe x y then x :: y :: ys else y :: insertSorted x ys

/-- Python `sorted` with key `(major, minor, point)` is a stable ascending
sort; it is modelled by stable insertion sort (stability and sortedness
determine the output uniquely). -/
def sortRecords : List VersionRecord → List VersionRecord
  | [] => []
  | x :: xs => insertSorted x (sortRecords xs)

/-- The parsing loop of `sort_versions_ascending` (source lines 62-77):
each label in order is matched and turned into a record; the first label
that fails to match raises
`AnsibleFilterError(f"incoming version {version} is not in accepted format")`,
aborting the whole call. -/
def build_version_info : List String → Except String (List VersionRecord)
  | [] => Except.ok []
  | version :: rest =>
    match parse_version version with
    | none => Except.error ("incoming version " ++ version ++ " is not in accepted format")
    | some r =>
      match build_version_info rest with
      | Except.error e => Except.error e
      | Except.ok rs => Except.ok (r :: rs)

/-- `sort_versions_ascending` (source lines 56-79): parse every label, then
return the stable ascending sort by `(major, minor, point)`. -/
def sort_versions_ascending (versions : List String) : Except String (List VersionRecord) :=
  match build_version_info versions with
  | Except.error e => Except.error e
  | Except.ok version_info => Except.ok (sortRecords version_info)

/-- `filter_out_decorated_versions_from` (source lines 82-84). -/
def filter_out_decorated_versions_from (versions_list : List VersionRecord) : List VersionRecord :=
  versions_list.filter (fun i => i.decorator == "")

/-- `match_latest` (source lines 87-92).  On an empty list the source
returns `''`, the empty Python sequence, over which the caller's final list
comprehension yields no elements; it is embedded as the empty list.
Otherwise the singleton `[sorted_input_versions[len(sorted_input_versions)-1]]`. -/
def match_latest (sorted_input_versions : List VersionRecord) : List VersionRecord :=
  if h : sorted_input_versions.length = 0 then []
  else [sorted_input_versions.get
          ⟨sorted_input_versions.length - 1, by omega⟩]

/-- Source line 103 compares `parsed_version['full_label'] == key` where
`key` was rebound at line 97 to the `re.Match` object returned by
`fullmatch`.  In Python a `str` never equals an `re.Match` (no cross-type
equality is defined), so the comparison is `False` for every record. -/
def strEqReboundMatch (_full_label : String) (_m : PartialKey) : Bool := false

/-- `match_eq` (source lines 95-117).  Note the source rebinds the name
`key` to the match object, so its parse-failure message interpolates `None`
and its decorator branch compares labels against the match object. -/
def match_eq (sorted_input_versions : List VersionRecord) (key : String) :
    Except String (List VersionRecord) :=
  match parse_key key with
  | none =>
    Except.error ("match key (None) is not valid for 'eq' operator")
  | some k =>
    if k.decorator.isSome then
      Except.ok (sorted_input_versions.filter (fun pv => strEqReboundMatch pv.full_label k))
    else
      let matches1 := sorted_input_versions.filter (fun pv => pv.major == k.major)
      let matches2 :=
        match k.minor with
        | none => matches1
        | some wanted_minor => matches1.filter (fun pv => pv.minor == wanted_minor)
      let matches3 :=
        match k.point with
        | none => matches2
        | some wanted_point => matches2.filter (fun pv => pv.point == wanted_point)
      Except.ok matches3

/-- `match_gte` (source lines 120-153): the pointer
`next_element_after_match` is advanced by up to three while-loops (major,
then minor, then point); each loop is a `dropWhile` with the loop's
condition, and the suffix from the final pointer is returned.  Its
parse-failure message names the `eq` operator, copied from `match_eq`. -/
def match_gte (sorted_input_versions : List VersionRecord) (key : String) :
    Except String (List VersionRecord) :=
  match parse_key key with
  | none =>
    Except.error ("match key (" ++ key ++ ") is not valid for 'eq' operator")
  | some key_matcher =>
    if key_matcher.decorator.isSome then
      Except.error ("match key (" ++ key ++
        ") contains a decorator with is meaningless with 'gte' filter")
    else
      let wanted_major := key_matcher.major
      let l1 := sorted_input_versions.dropWhile (fun r => decide (r.major < wanted_major))
      match key_matcher.minor with
      | none => Except.ok l1
      | some wanted_minor =>
        let l2 := l1.dropWhile (fun r => r.major == wanted_major && decide (r.minor < wanted_minor))
        match key_matcher.point with
        | none => Except.ok l2
        | some wanted_point =>
          Except.ok (l2.dropWhile (fun r =>
            r.major == wanted_major && r.minor == wanted_minor && decide (r.point < wanted_point)))

/-- `match_lte` (source lines 156-197): the same staged pointer advance, and
the prefix before the final pointer is returned, i.e. the concatenation of
the elements each while-loop stepped over (`takeWhile` of each stage).
When the key has a minor but no point, the last loop (source line 190)
tests only `minor == wanted_minor`, without re-checking the major.  Its
parse-failure message also names the `eq` operator. -/
def match_lte (sorted_input_versions : List VersionRecord) (key : String) :
    Except String (List VersionRecord) :=
  match parse_key key with
  | none =>
    Except.error ("match key (" ++ key ++ ") is not valid for 'eq' operator")
  | some key_matcher =>
    if key_matcher.decorator.isSome then
      Except.error ("match key (" ++ key ++
        ") contains a decorator with is meaningless with 'lte' filter")
    else
      let wanted_major := key_matcher.major
      let c1 := fun (r : VersionRecord) => decide (r.major < wanted_major)
      let t1 := sorted_input_versions.takeWhile c1
      let r1 := sorted_input_versions.dropWhile c1
      match key_matcher.minor with
      | none =>
        Except.ok (t1 ++ r1.takeWhile (fun r => r.major == wanted_major))
      | some wanted_minor =>
        let c2 := fun (r : VersionRecord) =>
          r.major == wanted_major && decide (r.minor < wanted_minor)
        let t2 := r1.takeWhile c2
        let r2 := r1.dropWhile c2
        match key_matcher.point with
        | none =>
          Except.ok (t1 ++ t2 ++ r2.takeWhile (fun r => r.minor == wanted_minor))
        | some wanted_point =>
          Except.ok (t1 ++ t2 ++ r2.takeWhile (fun r =>
            r.major == wanted_major && r.minor == wanted_minor &&
              decide (r.point ≤ wanted_point)))

/-- `github_release_version` (source lines 18-53): empty input short-circuits
to `[]`; otherwise parse and sort, optionally drop decorated records,
dispatch on `criteria` (each keyed criteria demanding exactly one extra
argument), and project either the stripped or the full label of each match. -/
def github_release_version (input_to_process : List String) (criteria : String)
    (args : List String) (include_decorated_versions : Bool) (normalize : Bool) :
    Except String (List String) :=
  if input_to_process.length = 0 then Except.ok []
  else
    match sort_versions_ascending input_to_process with
    | Except.error e => Except.error e
    | Except.ok sorted0 =>
      let sorted_input_versions :=
        if include_decorated_versions then sorted0
        else filter_out_decorated_versions_from sorted0
      let matched : Except String (List VersionRecord) :=
        if criteria = "latest" then Except.ok (match_latest sorted_input_versions)
        else if criteria = "gte" then
          match args with
          | [key] => match_gte sorted_input_versions key
          | _ => Except.error "'gte' requires a version"
        else if criteria = "lte" then
          match args with
          | [key] => match_lte sorted_input_versions key
          | _ => Except.error "'lte' requires a version"
        else if criteria = "eq" then
          match args with
          | [key] => match_eq sorted_input_versions key
          | _ => Except.error "'eq' requires a version"
        else Except.error ("criteria " ++ criteria ++ " not understood by github_release_version")
      match matched with
      | Except.error e => Except.error e
      | Except.ok matching_versions =>
        if normalize then Except.ok (matching_versions.map (fun x => x.stripped_version_label))
        else Except.ok (matching_versions.map (fun x => x.full_label))

end GithubReleaseVersion

namespace GithubReleaseVersion

/-- The sort key of a record: its `(major, minor, point)` triple. -/
def vkey (r : VersionRecord) : Nat × Nat × Nat := (r.major, r.minor, r.point)

/-- The truncated lexicographic `>=` test of §4.4: compare only the fields
the key specifies. -/
def truncGeKey (K : PartialKey) (r : VersionRecord) : Bool :=
  match K.minor with
  | none => decide (K.major ≤ r.major)
  | some m =>
    match K.point with
    | none =>
      decide (K.major < r.major) || (r.major == K.major && decide (m ≤ r.minor))
    | some p =>
      decide (K.major < r.major) ||
        (r.major == K.major && (decide (m < r.minor) || (r.minor == m && decide (p ≤ r.point))))

/-- Lexicographic `<=` against a fully specified key `(M, m, p)`. -/
def lteFullKey (M m p : Nat) (r : VersionRecord) : Bool :=
  decide (r.major < M) || (r.major == M && decide (r.minor < m)) ||
    (r.major == M && r.minor == m && decide (r.point ≤ p))

theorem keyLe_iff (a b : VersionRecord) :
    keyLe a b = true ↔
      (a.major < b.major ∨ (a.major = b.major ∧
        (a.minor < b.minor ∨ (a.minor = b.minor ∧ a.point ≤ b.point)))) := by
  simp [keyLe]

theorem keyLe_refl (a : VersionRecord) : keyLe a a = true := by
  rw [keyLe_iff]; omega

theorem keyLe_total (a b : VersionRecord) : keyLe a b = true ∨ keyLe b a = true := by
  rw [keyLe_iff, keyLe_iff]; omega

theorem keyLe_trans (a b c : VersionRecord)
    (h1 : keyLe a b = true) (h2 : keyLe b c = true) : keyLe a c = true := by
  rw [keyLe_iff] at h1 h2 ⊢; omega

theorem keyLe_of_vkey_eq (a b : VersionRecord) (h : vkey a = vkey b) : keyLe a b = true := by
  simp only [vkey, Prod.mk.injEq] at h
  rw [keyLe_iff]; omega

theorem insertSorted_perm (x : VersionRecord) :
    ∀ (l : List VersionRecord), (insertSorted x l).Perm (x :: l)
  | [] => List.Perm.refl _
  | y :: ys => by
    unfold insertSorted
    by_cases h : keyLe x y = true
    · simp [h]
    · simp only [h, if_false, Bool.false_eq_true]
      exact ((insertSorted_perm x ys).cons y).trans (List.Perm.swap x y ys)

theorem mem_insertSorted (x a : VersionRecord) (l : List VersionRecord) :
    a ∈ insertSorted x l ↔ a = x ∨ a ∈ l := by
  rw [(insertSorted_perm x l).mem_iff, List.mem_cons]

theorem pairwise_insertSorted (x : VersionRecord) :
    ∀ (l : List VersionRecord), l.Pairwise (fun a b => keyLe a b = true) →
      (insertSorted x l).Pairwise (fun a b => keyLe a b = true)
  | [], _ => List.pairwise_singleton _ x
  | y :: ys, h => by
    rcases List.pairwise_cons.mp h with ⟨hy, hys⟩
    by_cases hxy : keyLe x y = true
    · simp only [insertSorted, hxy, if_true]
      refine List.pairwise_cons.mpr ⟨?_, h⟩
      intro b hb
      rcases List.mem_cons.mp hb with rfl | hb
      · exact hxy
      · exact keyLe_trans x y b hxy (hy b hb)
    · simp only [insertSorted, hxy, if_false, Bool.false_eq_true]
      refine List.pairwise_cons.mpr ⟨?_, pairwise_insertSorted x ys hys⟩
      intro b hb
      rcases (mem_insertSorted x b ys).mp hb with hbx | hb
      · rw [hbx]
        rcases keyLe_total x y with h1 | h1
        · exact absurd h1 hxy
        · exact h1
      · exact hy b hb

theorem filter_insertSorted (p : VersionRecord → Bool)
    (hp : ∀ a b, p a = true → p b = true → keyLe a b = true) (x : VersionRecord) :
    ∀ (l : List VersionRecord),
      (insertSorted x l).filter p = if p x then x :: l.filter p else l.filter p
  | [] => by
    by_cases hpx : p x = true <;> simp [insertSorted, List.filter_cons, hpx]
  | y :: ys => by
    by_cases hxy : keyLe x y = true
    · simp only [insertSorted, hxy, if_true]
      by_cases hpx : p x = true <;> simp [List.filter_cons, hpx]
    · have IH := filter_insertSorted p hp x ys
      by_cases hpy : p y = true
      · have hpx : p x = false := by
          by_contra hc
          exact hxy (hp x y (by simpa using hc) hpy)
        simp [insertSorted, hxy, List.filter_cons, hpy, hpx, IH]
      · by_cases hpx : p x = true <;>
          simp [insertSorted, hxy, List.filter_cons, hpy, hpx, IH]

theorem sortRecords_perm : ∀ (l : List VersionRecord), (sortRecords l).Perm l
  | [] => List.Perm.refl _
  | x :: xs => (insertSorted_perm x (sortRecords xs)).trans ((sortRecords_perm xs).cons x)

theorem sortRecords_pairwise :
    ∀ (l : List VersionRecord), (sortRecords l).Pairwise (fun a b => keyLe a b = true)
  | [] => List.Pairwise.nil
  | x :: xs => pairwise_insertSorted x _ (sortRecords_pairwise xs)

theorem sortRecords_filter (p : VersionRecord → Bool)
    (hp : ∀ a b, p a = true → p b = true → keyLe a b = true) :
    ∀ (l : List VersionRecord), (sortRecords l).filter p = l.filter p
  | [] => rfl
  | x :: xs => by
    rw [sortRecords, filter_insertSorted p hp x, sortRecords_filter p hp xs, List.filter_cons]

end GithubReleaseVersion

namespace GithubReleaseVersion

/-- On a sorted list, `takeWhile p` is `filter p` whenever `p` is downward
closed along the order among the list's elements. -/
theorem takeWhile_eq_filter_sorted (p : VersionRecord → Bool) :
    ∀ (l : List VersionRecord), l.Pairwise (fun a b => keyLe a b = true) →
      (∀ a b, a ∈ l → b ∈ l → keyLe a b = true → p b = true → p a = true) →
      l.takeWhile p = l.filter p
  | [], _, _ => rfl
  | x :: t, hs, hdc => by
    rcases List.pairwise_cons.mp hs with ⟨hx, ht⟩
    by_cases hpx : p x = true
    · rw [List.takeWhile_cons, List.filter_cons,
        takeWhile_eq_filter_sorted p t ht (fun a b ha hb =>
          hdc a b (List.mem_cons_of_mem x ha) (List.mem_cons_of_mem x hb))]
      simp [hpx]
    · have hnil : t.filter p = [] := by
        rw [List.filter_eq_nil_iff]
        intro b hb hpb
        exact hpx (hdc x b (List.mem_cons_self x t) (List.mem_cons_of_mem x hb) (hx b hb) hpb)
      rw [List.takeWhile_cons, List.filter_cons]
      simp [hpx, hnil]

/-- On a sorted list, `dropWhile p` is `filter (!p)` whenever `p` is downward
closed along the order among the list's elements. -/
theorem dropWhile_eq_filter_sorted (p : VersionRecord → Bool) :
    ∀ (l : List VersionRecord), l.Pairwise (fun a b => keyLe a b = true) →
      (∀ a b, a ∈ l → b ∈ l → keyLe a b = true → p b = true → p a = true) →
      l.dropWhile p = l.filter (fun a => ! p a)
  | [], _, _ => rfl
  | x :: t, hs, hdc => by
    rcases List.pairwise_cons.mp hs with ⟨hx, ht⟩
    by_cases hpx : p x = true
    · rw [List.dropWhile_cons, List.filter_cons,
        dropWhile_eq_filter_sorted p t ht (fun a b ha hb =>
          hdc a b (List.mem_cons_of_mem x ha) (List.mem_cons_of_mem x hb))]
      simp [hpx]
    · have hself : t.filter (fun a => ! p a) = t := by
        rw [List.filter_eq_self]
        intro b hb
        by_contra hc
        simp only [Bool.not_eq_true', Bool.not_eq_false] at hc
        exact hpx (hdc x b (List.mem_cons_self x t) (List.mem_cons_of_mem x hb) (hx b hb) hc)
      rw [List.dropWhile_cons, List.filter_cons]
      simp [hpx, hself]

/-- On a sorted list, when no `q`-element precedes a `p`-element and no
element satisfies both, filtering the disjunction splits into the
concatenation of the two filters. -/
theorem filter_or_sorted (p q : VersionRecord → Bool) :
    ∀ (l : List VersionRecord), l.Pairwise (fun a b => keyLe a b = true) →
      (∀ a, a ∈ l → ¬(p a = true ∧ q a = true)) →
      (∀ a b, a ∈ l → b ∈ l → keyLe a b = true → q a = true → p b = true → False) →
      l.filter (fun a => p a || q a) = l.filter p ++ l.filter q
  | [], _, _, _ => rfl
  | x :: t, hs, hdisj, hord => by
    rcases List.pairwise_cons.mp hs with ⟨hx, ht⟩
    have IH := filter_or_sorted p q t ht
      (fun a ha => hdisj a (List.mem_cons_of_mem x ha))
      (fun a b ha hb => hord a b (List.mem_cons_of_mem x ha) (List.mem_cons_of_mem x hb))
    by_cases hpx : p x = true
    · have hqx : q x = false := by
        by_contra hc
        simp only [Bool.not_eq_false] at hc
        exact hdisj x (List.mem_cons_self x t) ⟨hpx, hc⟩
      simp [List.filter_cons, hpx, hqx, IH]
    · by_cases hqx : q x = true
      · have hfpt : t.filter p = [] := by
          rw [List.filter_eq_nil_iff]
          intro b hb hpb
          exact hord x b (List.mem_cons_self x t) (List.mem_cons_of_mem x hb) (hx b hb) hqx hpb
        simp [List.filter_cons, hpx, hqx, IH, hfpt]
      · simp [List.filter_cons, hpx, hqx, IH]

end GithubReleaseVersion

namespace GithubReleaseVersion

/-- Evaluation of `match_gte` for a major-only key: only the first
while-loop runs. -/
theorem match_gte_major_only (rs : List VersionRecord) (key : String) (M : Nat)
    (pt : Option Nat) (hk : parse_key key = some ⟨M, none, pt, none⟩) :
    match_gte rs key = Except.ok (rs.dropWhile (fun r => decide (r.major < M))) := by
  unfold match_gte
  rw [hk]
  rfl

/-- Evaluation of `match_gte` for a `major.minor` key: two while-loops. -/
theorem match_gte_major_minor (rs : List VersionRecord) (key : String) (M m : Nat)
    (hk : parse_key key = some ⟨M, some m, none, none⟩) :
    match_gte rs key = Except.ok ((rs.dropWhile (fun r => decide (r.major < M))).dropWhile
      (fun r => r.major == M && decide (r.minor < m))) := by
  unfold match_gte
  rw [hk]
  rfl

/-- Evaluation of `match_gte` for a fully specified key: three while-loops. -/
theorem match_gte_full_eval (rs : List VersionRecord) (key : String) (M m p : Nat)
    (hk : parse_key key = some ⟨M, some m, some p, none⟩) :
    match_gte rs key = Except.ok (((rs.dropWhile (fun r => decide (r.major < M))).dropWhile
      (fun r => r.major == M && decide (r.minor < m))).dropWhile
      (fun r => r.major == M && r.minor == m && decide (r.point < p))) := by
  unfold match_gte
  rw [hk]
  rfl

end GithubReleaseVersion

namespace GithubReleaseVersion

/-- `match_gte` on a sorted list with a decorator-free key returns exactly
the records whose truncated `(major, minor, point)` prefix is `>=` the key,
and that result is a suffix of the input. -/
theorem match_gte_filter_suffix (rs : List VersionRecord) (key : String) (K : PartialKey)
    (hs : rs.Pairwise (fun a b => keyLe a b = true))
    (hk : parse_key key = some K) (hd : K.decorator = none) :
    match_gte rs key = Except.ok (rs.filter (truncGeKey K)) ∧
    List.IsSuffix (rs.filter (truncGeKey K)) rs := by
  obtain ⟨M, mi, pt, dec⟩ := K
  cases dec with
  | some d => exact absurd hd (by simp)
  | none =>
  have e1 : rs.dropWhile (fun r => decide (r.major < M)) =
      rs.filter (fun r => ! decide (r.major < M)) := by
    refine dropWhile_eq_filter_sorted _ rs hs ?_
    intro a b _ _ hab hpb
    rw [keyLe_iff] at hab
    simp only [decide_eq_true_eq] at hpb ⊢
    omega
  cases mi with
  | none =>
    have e4 : rs.filter (fun r => ! decide (r.major < M)) =
        rs.filter (truncGeKey ⟨M, none, pt, none⟩) := by
      refine List.filter_congr ?_
      intro r _
      rw [Bool.eq_iff_iff]
      simp only [truncGeKey, Bool.not_eq_true', Bool.and_eq_true, Bool.or_eq_true,
        Bool.and_eq_false_iff, beq_iff_eq, beq_eq_false_iff_ne, ne_eq,
        decide_eq_true_eq, decide_eq_false_iff_not]
      omega
    refine ⟨?_, ?_⟩
    · rw [match_gte_major_only rs key M pt hk, e1, e4]
    · rw [← e4, ← e1]
      exact List.dropWhile_suffix _
  | some m =>
    have hs1 : (rs.filter (fun r => ! decide (r.major < M))).Pairwise
        (fun a b => keyLe a b = true) := hs.filter _
    have e2 : (rs.filter (fun r => ! decide (r.major < M))).dropWhile
          (fun r => r.major == M && decide (r.minor < m)) =
        (rs.filter (fun r => ! decide (r.major < M))).filter
          (fun r => ! (r.major == M && decide (r.minor < m))) := by
      refine dropWhile_eq_filter_sorted _ _ hs1 ?_
      intro a b ha hb hab hpb
      rw [keyLe_iff] at hab
      simp only [List.mem_filter, Bool.not_eq_true', decide_eq_false_iff_not] at ha hb
      simp only [Bool.and_eq_true, beq_iff_eq, decide_eq_true_eq] at hpb ⊢
      omega
    have e3 : (rs.filter (fun r => ! decide (r.major < M))).filter
          (fun r => ! (r.major == M && decide (r.minor < m))) =
        rs.filter (fun r =>
          (! (r.major == M && decide (r.minor < m))) && (! decide (r.major < M))) :=
      List.filter_filter _ rs
    cases pt with
    | none =>
      have e4 : rs.filter (fun r =>
            (! (r.major == M && decide (r.minor < m))) && (! decide (r.major < M))) =
          rs.filter (truncGeKey ⟨M, some m, none, none⟩) := by
        refine List.filter_congr ?_
        intro r _
        rw [Bool.eq_iff_iff]
        simp only [truncGeKey, Bool.not_eq_true', Bool.and_eq_true, Bool.or_eq_true,
          Bool.and_eq_false_iff, beq_iff_eq, beq_eq_false_iff_ne, ne_eq,
          decide_eq_true_eq, decide_eq_false_iff_not]
        omega
      refine ⟨?_, ?_⟩
      · rw [match_gte_major_minor rs key M m hk, e1, e2, e3, e4]
      · rw [← e4, ← e3, ← e2]
        refine (List.dropWhile_suffix _).trans ?_
        rw [← e1]
        exact List.dropWhile_suffix _
    | some p =>
      have hs2 : (rs.filter (fun r =>
          (! (r.major == M && decide (r.minor < m))) && (! decide (r.major < M)))).Pairwise
          (fun a b => keyLe a b = true) := hs.filter _
      have e5 : (rs.filter (fun r =>
            (! (r.major == M && decide (r.minor < m))) && (! decide (r.major < M)))).dropWhile
            (fun r => r.major == M && r.minor == m && decide (r.point < p)) =
          (rs.filter (fun r =>
            (! (r.major == M && decide (r.minor < m))) && (! decide (r.major < M)))).filter
            (fun r => ! (r.major == M && r.minor == m && decide (r.point < p))) := by
        refine dropWhile_eq_filter_sorted _ _ hs2 ?_
        intro a b ha hb hab hpb
        rw [keyLe_iff] at hab
        simp only [List.mem_filter, Bool.and_eq_true, Bool.not_eq_true',
          Bool.and_eq_false_iff, beq_iff_eq, beq_eq_false_iff_ne, ne_eq,
          decide_eq_false_iff_not, decide_eq_true_eq] at ha hb
        simp only [Bool.and_eq_true, beq_iff_eq, decide_eq_true_eq] at hpb ⊢
        omega
      have e6 : (rs.filter (fun r =>
            (! (r.major == M && decide (r.minor < m))) && (! decide (r.major < M)))).filter
            (fun r => ! (r.major == M && r.minor == m && decide (r.point < p))) =
          rs.filter (fun r =>
            (! (r.major == M && r.minor == m && decide (r.point < p))) &&
            ((! (r.major == M && decide (r.minor < m))) && (! decide (r.major < M)))) :=
        List.filter_filter _ rs
      have e4 : rs.filter (fun r =>
            (! (r.major == M && r.minor == m && decide (r.point < p))) &&
            ((! (r.major == M && decide (r.minor < m))) && (! decide (r.major < M)))) =
          rs.filter (truncGeKey ⟨M, some m, some p, none⟩) := by
        refine List.filter_congr ?_
        intro r _
        rw [Bool.eq_iff_iff]
        simp only [truncGeKey, Bool.not_eq_true', Bool.and_eq_true, Bool.or_eq_true,
          Bool.and_eq_false_iff, beq_iff_eq, beq_eq_false_iff_ne, ne_eq,
          decide_eq_true_eq, decide_eq_false_iff_not]
        omega
      refine ⟨?_, ?_⟩
      · rw [match_gte_full_eval rs key M m p hk, e1, e2, e3, e5, e6, e4]
      · rw [← e4, ← e6, ← e5]
        refine (List.dropWhile_suffix _).trans ?_
        rw [← e3, ← e2]
        refine (List.dropWhile_suffix _).trans ?_
        rw [← e1]
        exact List.dropWhile_suffix _

end GithubReleaseVersion

namespace GithubReleaseVersion

/-- Evaluation of `match_lte` for a fully specified key: the returned prefix
is the concatenation of the elements stepped over by the three while-loops. -/
theorem match_lte_full_eval (rs : List VersionRecord) (key : String) (M m p : Nat)
    (hk : parse_key key = some ⟨M, some m, some p, none⟩) :
    match_lte rs key = Except.ok (
      rs.takeWhile (fun r => decide (r.major < M)) ++
      (rs.dropWhile (fun r => decide (r.major < M))).takeWhile
        (fun r => r.major == M && decide (r.minor < m)) ++
      ((rs.dropWhile (fun r => decide (r.major < M))).dropWhile
        (fun r => r.major == M && decide (r.minor < m))).takeWhile
        (fun r => r.major == M && r.minor == m && decide (r.point ≤ p))) := by
  unfold match_lte
  rw [hk]
  rfl

/-- `match_lte` on a sorted list with a fully specified key returns exactly
the records whose `(major, minor, point)` is lexicographically `<=` the key. -/
theorem match_lte_full_filter (rs : List VersionRecord) (key : String) (M m p : Nat)
    (hs : rs.Pairwise (fun a b => keyLe a b = true))
    (hk : parse_key key = some ⟨M, some m, some p, none⟩) :
    match_lte rs key = Except.ok (rs.filter (lteFullKey M m p)) := by
  have e1t : rs.takeWhile (fun r => decide (r.major < M)) =
      rs.filter (fun r => decide (r.major < M)) := by
    refine takeWhile_eq_filter_sorted _ rs hs ?_
    intro a b _ _ hab hpb
    rw [keyLe_iff] at hab
    simp only [decide_eq_true_eq] at hpb ⊢
    omega
  have e1d : rs.dropWhile (fun r => decide (r.major < M)) =
      rs.filter (fun r => ! decide (r.major < M)) := by
    refine dropWhile_eq_filter_sorted _ rs hs ?_
    intro a b _ _ hab hpb
    rw [keyLe_iff] at hab
    simp only [decide_eq_true_eq] at hpb ⊢
    omega
  have hs1 : (rs.filter (fun r => ! decide (r.major < M))).Pairwise
      (fun a b => keyLe a b = true) := hs.filter _
  have e2t : (rs.filter (fun r => ! decide (r.major < M))).takeWhile
        (fun r => r.major == M && decide (r.minor < m)) =
      (rs.filter (fun r => ! decide (r.major < M))).filter
        (fun r => r.major == M && decide (r.minor < m)) := by
    refine takeWhile_eq_filter_sorted _ _ hs1 ?_
    intro a b ha hb hab hpb
    rw [keyLe_iff] at hab
    simp only [List.mem_filter, Bool.not_eq_true', decide_eq_false_iff_not] at ha hb
    simp only [Bool.and_eq_true, beq_iff_eq, decide_eq_true_eq] at hpb ⊢
    omega
  have e2d : (rs.filter (fun r => ! decide (r.major < M))).dropWhile
        (fun r => r.major == M && decide (r.minor < m)) =
      (rs.filter (fun r => ! decide (r.major < M))).filter
        (fun r => ! (r.major == M && decide (r.minor < m))) := by
    refine dropWhile_eq_filter_sorted _ _ hs1 ?_
    intro a b ha hb hab hpb
    rw [keyLe_iff] at hab
    simp only [List.mem_filter, Bool.not_eq_true', decide_eq_false_iff_not] at ha hb
    simp only [Bool.and_eq_true, beq_iff_eq, decide_eq_true_eq] at hpb ⊢
    omega
  have hs2 : ((rs.filter (fun r => ! decide (r.major < M))).filter
      (fun r => ! (r.major == M && decide (r.minor < m)))).Pairwise
      (fun a b => keyLe a b = true) := hs1.filter _
  have e3t : ((rs.filter (fun r => ! decide (r.major < M))).filter
        (fun r => ! (r.major == M && decide (r.minor < m)))).takeWhile
        (fun r => r.major == M && r.minor == m && decide (r.point ≤ p)) =
      ((rs.filter (fun r => ! decide (r.major < M))).filter
        (fun r => ! (r.major == M && decide (r.minor < m)))).filter
        (fun r => r.major == M && r.minor == m && decide (r.point ≤ p)) := by
    refine takeWhile_eq_filter_sorted _ _ hs2 ?_
    intro a b ha hb hab hpb
    rw [keyLe_iff] at hab
    simp only [List.mem_filter, Bool.not_eq_true', Bool.and_eq_false_iff,
      beq_iff_eq, beq_eq_false_iff_ne, ne_eq,
      decide_eq_false_iff_not] at ha hb
    simp only [Bool.and_eq_true, beq_iff_eq, decide_eq_true_eq] at hpb ⊢
    omega
  have e2c : (rs.filter (fun r => ! decide (r.major < M))).filter
        (fun r => r.major == M && decide (r.minor < m)) =
      rs.filter (fun r => r.major == M && decide (r.minor < m)) := by
    rw [List.filter_filter]
    refine List.filter_congr ?_
    intro r _
    rw [Bool.eq_iff_iff]
    simp only [Bool.and_eq_true, Bool.not_eq_true', beq_iff_eq,
      decide_eq_true_eq, decide_eq_false_iff_not]
    omega
  have e3c : ((rs.filter (fun r => ! decide (r.major < M))).filter
        (fun r => ! (r.major == M && decide (r.minor < m)))).filter
        (fun r => r.major == M && r.minor == m && decide (r.point ≤ p)) =
      rs.filter (fun r => r.major == M && r.minor == m && decide (r.point ≤ p)) := by
    rw [List.filter_filter, List.filter_filter]
    refine List.filter_congr ?_
    intro r _
    rw [Bool.eq_iff_iff]
    simp only [Bool.and_eq_true, Bool.not_eq_true', Bool.and_eq_false_iff,
      beq_iff_eq, beq_eq_false_iff_ne, ne_eq,
      decide_eq_true_eq, decide_eq_false_iff_not]
    omega
  have esplit : rs.filter (lteFullKey M m p) =
      (rs.filter (fun r => decide (r.major < M)) ++
        rs.filter (fun r => r.major == M && decide (r.minor < m))) ++
      rs.filter (fun r => r.major == M && r.minor == m && decide (r.point ≤ p)) := by
    have h1 : rs.filter (lteFullKey M m p) =
        rs.filter (fun r =>
          (decide (r.major < M) || (r.major == M && decide (r.minor < m))) ||
          (r.major == M && r.minor == m && decide (r.point ≤ p))) := rfl
    rw [h1, filter_or_sorted _ _ rs hs ?disj ?ord]
    · rw [filter_or_sorted _ _ rs hs ?disj2 ?ord2]
      · intro a _
        simp only [Bool.and_eq_true, beq_iff_eq, decide_eq_true_eq, not_and]
        omega
      · intro a b _ _ hab hqa hpb
        rw [keyLe_iff] at hab
        simp only [Bool.and_eq_true, beq_iff_eq, decide_eq_true_eq] at hqa hpb
        omega
    · intro a _
      simp only [Bool.or_eq_true, Bool.and_eq_true, beq_iff_eq, decide_eq_true_eq, not_and]
      omega
    · intro a b _ _ hab hqa hpb
      rw [keyLe_iff] at hab
      simp only [Bool.or_eq_true, Bool.and_eq_true, beq_iff_eq, decide_eq_true_eq] at hqa hpb
      omega
  rw [match_lte_full_eval rs key M m p hk, e1t, e1d, e2t, e2d, e2c, e3t, e3c, esplit]

end GithubReleaseVersion

namespace GithubReleaseVersion

/-- In a sorted list, every element is `<=` the last element. -/
theorem pairwise_keyLe_getLast (l : List VersionRecord) :
    l.Pairwise (fun a b => keyLe a b = true) →
    ∀ (h : l ≠ []) (s : VersionRecord), s ∈ l → keyLe s (l.getLast h) = true := by
  induction l with
  | nil => intro _ h; exact absurd rfl h
  | cons x t ih =>
    intro hp h s hs
    rcases List.pairwise_cons.mp hp with ⟨hx, ht⟩
    cases t with
    | nil =>
      rcases List.mem_singleton.mp hs with rfl
      exact keyLe_refl s
    | cons y u =>
      have hne : (y :: u) ≠ [] := by simp
      rw [List.getLast_cons hne]
      rcases List.mem_cons.mp hs with rfl | hs2
      · exact hx _ (List.getLast_mem hne)
      · exact ih ht hne s hs2

/-- On a non-empty list, `match_latest` is the singleton of the last element. -/
theorem match_latest_nonempty (l : List VersionRecord) (h : l ≠ []) :
    match_latest l = [l.getLast h] := by
  unfold match_latest
  have hl : ¬ l.length = 0 := by simpa using h
  rw [dif_neg hl]
  congr 1
  exact (List.getLast_eq_get l h).symm

/-- If some label fails to parse, the parsing loop of
`sort_versions_ascending` raises, whichever label it reports first. -/
theorem build_version_info_error (labels : List String) (label : String)
    (hmem : label ∈ labels) (hbad : parse_version label = none) :
    ∃ e, build_version_info labels = Except.error e := by
  induction labels with
  | nil => exact absurd hmem (List.not_mem_nil _)
  | cons v rest ih =>
    rcases List.mem_cons.mp hmem with rfl | hm
    · exact ⟨_, by unfold build_version_info; rw [hbad]⟩
    · cases hv : parse_version v with
      | none => exact ⟨_, by unfold build_version_info; rw [hv]⟩
      | some r =>
        rcases ih hm with ⟨e, he⟩
        refine ⟨e, ?_⟩
        unfold build_version_info
        rw [hv, he]

/-- A successful sort comes from a successful parse of every label, and the
output is the stable sort of the parsed records. -/
theorem sort_ok_inv (labels : List String) (sortedL : List VersionRecord)
    (h : sort_versions_ascending labels = Except.ok sortedL) :
    ∃ vi, build_version_info labels = Except.ok vi ∧ sortedL = sortRecords vi := by
  unfold sort_versions_ascending at h
  cases hb : build_version_info labels with
  | error e => rw [hb] at h; cases h
  | ok vi =>
    rw [hb] at h
    refine ⟨vi, rfl, ?_⟩
    cases h
    rfl

/-- A sort error propagates through `github_release_version` for every
criteria, argument list and flag combination, as long as the input list is
non-empty. -/
theorem github_release_version_error_of_sort (labels : List String) (e : String)
    (hne : labels ≠ []) (hs : sort_versions_ascending labels = Except.error e)
    (criteria : String) (args : List String) (i n : Bool) :
    github_release_version labels criteria args i n = Except.error e := by
  unfold github_release_version
  have hl : ¬ labels.length = 0 := by simpa using hne
  rw [if_neg hl, hs]

/-- Any string `parse_key` accepts starts with a digit (in particular never
with `v`). -/
theorem parse_key_head_digit (s : String) (k : PartialKey) (h : parse_key s = some k) :
    (s.data.headD ' ').isDigit = true ∧ s ≠ "" := by
  unfold parse_key at h
  cases hd : s.data with
  | nil =>
    rw [hd] at h
    simp [List.span_eq_take_drop] at h
  | cons c cs =>
    rw [hd] at h
    by_cases hc : c.isDigit
    · refine ⟨by simpa [hd] using hc, ?_⟩
      intro hs
      rw [hs] at hd
      simp at hd
    · rw [List.span_eq_take_drop] at h
      simp [List.takeWhile_cons, hc] at h

end GithubReleaseVersion

namespace GithubReleaseVersion

/-- C1: the claim says `Lte` with a `major.minor` key never returns a record
whose major exceeds the key's major.  The code violates this: its final
while-loop (source line 190) checks only `minor == wanted_minor`, so on the
sorted input `["1.1.0", "2.1.0"]` with key `"1.1"` the record `2.1.0`
(major 2 > 1) is also returned, contradicting the loop's own comment
`if key is x.y then all point versions of x.y are matched`. -/
theorem C1_lte_crosses_major_bound :
    github_release_version ["1.1.0", "2.1.0"] "lte" ["1.1"] false true =
      Except.ok ["1.1.0", "2.1.0"] ∧
    match_lte [⟨"1.1.0", "1.1.0", 1, 1, 0, ""⟩, ⟨"2.1.0", "2.1.0", 2, 1, 0, ""⟩] "1.1" =
      Except.ok [⟨"1.1.0", "1.1.0", 1, 1, 0, ""⟩, ⟨"2.1.0", "2.1.0", 2, 1, 0, ""⟩] :=
  ⟨rfl, rfl⟩

/-- C2: the claim says `Eq` with a decorator-qualified key returns the
records whose `full_label` equals the literal key string.  The code rebinds
`key` to the `re.Match` object (source line 97), so the comparison at line
103 is `str == re.Match`, always false: even though `"1.0.0-alpha"` parses
to a record whose `full_label` is exactly the key string, the call returns
the empty list. -/
theorem C2_eq_decorator_always_empty :
    github_release_version ["1.0.0-alpha"] "eq" ["1.0.0-alpha"] true false =
      Except.ok [] ∧
    parse_version "1.0.0-alpha" =
      some ⟨"1.0.0-alpha", "1.0.0-alpha", 1, 0, 0, "alpha"⟩ :=
  ⟨rfl, rfl⟩

/-- C3 counterexample: `Gte("1.1.4")` and `Lte("1.1.4")` are NOT disjoint:
on the sorted, decorator-free singleton at exactly the boundary
`(1, 1, 4)`, both strategies return that record. -/
theorem C3_boundary_record_in_both :
    match_gte [⟨"1.1.4", "v1.1.4", 1, 1, 4, ""⟩] "1.1.4" =
      Except.ok [⟨"1.1.4", "v1.1.4", 1, 1, 4, ""⟩] ∧
    match_lte [⟨"1.1.4", "v1.1.4", 1, 1, 4, ""⟩] "1.1.4" =
      Except.ok [⟨"1.1.4", "v1.1.4", 1, 1, 4, ""⟩] ∧
    List.Pairwise (fun a b => keyLe a b = true) [⟨"1.1.4", "v1.1.4", 1, 1, 4, ""⟩] ∧
    (∀ r ∈ [(⟨"1.1.4", "v1.1.4", 1, 1, 4, ""⟩ : VersionRecord)], r.decorator = "") :=
  ⟨rfl, rfl, List.pairwise_singleton _ _, by simp⟩

/-- C3 amended: on a sorted, decorator-filtered list with a fully specified
key, `Gte` returns the records with triple `>=` the key and `Lte` those with
triple `<=` the key; every record lands in at least one result, and a record
is in both exactly when its triple equals the key's, so away from the
boundary the two results partition the input. -/
theorem C3_gte_lte_cover_overlap_boundary (rs : List VersionRecord) (key : String)
    (M m p : Nat)
    (hs : rs.Pairwise (fun a b => keyLe a b = true))
    (hdec : ∀ r ∈ rs, r.decorator = "")
    (hk : parse_key key = some ⟨M, some m, some p, none⟩) :
    match_gte rs key = Except.ok (rs.filter (truncGeKey ⟨M, some m, some p, none⟩)) ∧
    match_lte rs key = Except.ok (rs.filter (lteFullKey M m p)) ∧
    (∀ r ∈ rs, truncGeKey ⟨M, some m, some p, none⟩ r = true ∨ lteFullKey M m p r = true) ∧
    (∀ r, r ∈ rs.filter (truncGeKey ⟨M, some m, some p, none⟩) ∧
        r ∈ rs.filter (lteFullKey M m p) ↔
      r ∈ rs ∧ (r.major, r.minor, r.point) = (M, m, p)) := by
  refine ⟨(match_gte_filter_suffix rs key _ hs hk rfl).1,
    match_lte_full_filter rs key M m p hs hk, ?_, ?_⟩
  · intro r _
    simp only [truncGeKey, lteFullKey, Bool.or_eq_true, Bool.and_eq_true,
      beq_iff_eq, decide_eq_true_eq]
    omega
  · intro r
    simp only [List.mem_filter, truncGeKey, lteFullKey, Bool.or_eq_true,
      Bool.and_eq_true, beq_iff_eq, decide_eq_true_eq, Prod.mk.injEq]
    constructor
    · rintro ⟨⟨hm1, hA⟩, _, hB⟩
      exact ⟨hm1, by omega⟩
    · rintro ⟨hm, hE⟩
      exact ⟨⟨hm, by omega⟩, hm, by omega⟩

/-- C3 witness: the amended statement applied to the concrete sorted list
`[1.1.3, 1.1.5]` and key `"1.1.4"`. -/
theorem C3_gte_lte_witness :
    match_gte [⟨"1.1.3", "1.1.3", 1, 1, 3, ""⟩, ⟨"1.1.5", "1.1.5", 1, 1, 5, ""⟩] "1.1.4" =
      Except.ok ([⟨"1.1.3", "1.1.3", 1, 1, 3, ""⟩, ⟨"1.1.5", "1.1.5", 1, 1, 5, ""⟩].filter
        (truncGeKey ⟨1, some 1, some 4, none⟩)) :=
  (C3_gte_lte_cover_overlap_boundary
    [⟨"1.1.3", "1.1.3", 1, 1, 3, ""⟩, ⟨"1.1.5", "1.1.5", 1, 1, 5, ""⟩] "1.1.4" 1 1 4
    (by decide) (by decide) rfl).1

/-- C4: on a sorted, decorator-filtered list, `Gte` with a decorator-free
partial key returns exactly the records whose `(major, minor, point)` tuple,
compared lexicographically truncated to the fields the key specifies, is
`>=` the key; the result is a suffix of the sorted input. -/
theorem C4_gte_truncated_suffix (rs : List VersionRecord) (key : String) (K : PartialKey)
    (hs : rs.Pairwise (fun a b => keyLe a b = true))
    (hdec : ∀ r ∈ rs, r.decorator = "")
    (hk : parse_key key = some K) (hd : K.decorator = none) :
    match_gte rs key = Except.ok (rs.filter (truncGeKey K)) ∧
    List.IsSuffix (rs.filter (truncGeKey K)) rs :=
  match_gte_filter_suffix rs key K hs hk hd

/-- C4 witness: the theorem applied to the concrete sorted list
`[1.0.0, 1.2.0]` and the partial key `"1.1"`. -/
theorem C4_gte_witness :
    match_gte [⟨"1.0.0", "1.0.0", 1, 0, 0, ""⟩, ⟨"1.2.0", "1.2.0", 1, 2, 0, ""⟩] "1.1" =
      Except.ok ([⟨"1.0.0", "1.0.0", 1, 0, 0, ""⟩, ⟨"1.2.0", "1.2.0", 1, 2, 0, ""⟩].filter
        (truncGeKey ⟨1, some 1, none, none⟩)) :=
  (C4_gte_truncated_suffix
    [⟨"1.0.0", "1.0.0", 1, 0, 0, ""⟩, ⟨"1.2.0", "1.2.0", 1, 2, 0, ""⟩] "1.1"
    ⟨1, some 1, none, none⟩ (by decide) (by decide) rfl rfl).1

end GithubReleaseVersion

namespace GithubReleaseVersion

/-- C5: `Latest` on the empty sequence yields the empty sequence, and on any
non-empty decorator-filtered sequence (as produced by the pipeline: parse,
stable sort, decorator filter) yields exactly one element, which is maximal
by `(major, minor, point)` among the inputs. -/
theorem C5_latest_single_maximum (labels : List String) (sortedL : List VersionRecord)
    (h : sort_versions_ascending labels = Except.ok sortedL) :
    (filter_out_decorated_versions_from sortedL = [] →
      match_latest (filter_out_decorated_versions_from sortedL) = []) ∧
    (filter_out_decorated_versions_from sortedL ≠ [] →
      (match_latest (filter_out_decorated_versions_from sortedL)).length = 1 ∧
      ∀ r ∈ match_latest (filter_out_decorated_versions_from sortedL),
        r ∈ filter_out_decorated_versions_from sortedL ∧
        ∀ s ∈ filter_out_decorated_versions_from sortedL, keyLe s r = true) := by
  obtain ⟨vi, hb, hL⟩ := sort_ok_inv labels sortedL h
  subst hL
  have hrs : (filter_out_decorated_versions_from (sortRecords vi)).Pairwise
      (fun a b => keyLe a b = true) := (sortRecords_pairwise vi).filter _
  constructor
  · intro he
    rw [he]
    rfl
  · intro hne
    rw [match_latest_nonempty _ hne]
    refine ⟨rfl, ?_⟩
    intro r hr
    rcases List.mem_singleton.mp hr with rfl
    exact ⟨List.getLast_mem hne,
      fun s hs => pairwise_keyLe_getLast _ hrs hne s hs⟩

/-- C5 witness: the non-empty branch on the parsed, sorted, filtered input
`["v2.0.0", "v1.0.0"]`. -/
theorem C5_latest_witness :
    (match_latest (filter_out_decorated_versions_from
      [⟨"1.0.0", "v1.0.0", 1, 0, 0, ""⟩, ⟨"2.0.0", "v2.0.0", 2, 0, 0, ""⟩])).length = 1 :=
  ((C5_latest_single_maximum ["v2.0.0", "v1.0.0"]
    [⟨"1.0.0", "v1.0.0", 1, 0, 0, ""⟩, ⟨"2.0.0", "v2.0.0", 2, 0, 0, ""⟩] rfl).2
    (by decide)).1

/-- C6: `sort_versions_ascending` on parseable labels returns the parsed
records in ascending `(major, minor, point)` order; the sort is stable
(records with equal triples keep their input order - the per-triple filter
of the output equals that of the parsed input, decorators notwithstanding),
and re-running on the same input gives the identical ordering. -/
theorem C6_sort_ascending_stable (labels : List String) (recs : List VersionRecord)
    (h : build_version_info labels = Except.ok recs) :
    sort_versions_ascending labels = Except.ok (sortRecords recs) ∧
    (sortRecords recs).Pairwise (fun a b => keyLe a b = true) ∧
    (sortRecords recs).Perm recs ∧
    (∀ k : Nat × Nat × Nat,
      (sortRecords recs).filter (fun r => vkey r == k) =
        recs.filter (fun r => vkey r == k)) ∧
    (∀ labels2, labels2 = labels →
      sort_versions_ascending labels2 = sort_versions_ascending labels) := by
  refine ⟨?_, sortRecords_pairwise recs, sortRecords_perm recs, ?_, ?_⟩
  · unfold sort_versions_ascending
    rw [h]
  · intro k
    refine sortRecords_filter _ ?_ recs
    intro a b ha hb
    refine keyLe_of_vkey_eq a b ?_
    simp only [beq_iff_eq] at ha hb
    rw [ha, hb]
  · intro labels2 h2
    rw [h2]

/-- C6 witness: the sort equation on the concrete labels
`["v1.1.0", "1.1.0-rc1"]` (equal triples, distinct decorators). -/
theorem C6_sort_witness :
    sort_versions_ascending ["v1.1.0", "1.1.0-rc1"] =
      Except.ok (sortRecords [⟨"1.1.0", "v1.1.0", 1, 1, 0, ""⟩,
        ⟨"1.1.0-rc1", "1.1.0-rc1", 1, 1, 0, "rc1"⟩]) :=
  (C6_sort_ascending_stable ["v1.1.0", "1.1.0-rc1"]
    [⟨"1.1.0", "v1.1.0", 1, 1, 0, ""⟩, ⟨"1.1.0-rc1", "1.1.0-rc1", 1, 1, 0, "rc1"⟩]
    rfl).1

/-- C7: if any one label fails to parse, `sort_versions_ascending` fails for
the whole call (no partial result), and so does `github_release_version` for
every criteria, argument list and flag combination on that input. -/
theorem C7_parse_all_or_nothing (labels : List String) (label : String)
    (hmem : label ∈ labels) (hbad : parse_version label = none) :
    (sort_versions_ascending labels).toOption = none ∧
    ∀ (criteria : String) (args : List String) (i n : Bool),
      (github_release_version labels criteria args i n).toOption = none := by
  rcases build_version_info_error labels label hmem hbad with ⟨e, he⟩
  have hsort : sort_versions_ascending labels = Except.error e := by
    unfold sort_versions_ascending
    rw [he]
  have hne : labels ≠ [] := by
    intro h0
    rw [h0] at hmem
    exact (List.not_mem_nil label) hmem
  refine ⟨by rw [hsort]; rfl, ?_⟩
  intro criteria args i n
  rw [github_release_version_error_of_sort labels e hne hsort criteria args i n]
  rfl

/-- C7 witness: `"release-x"` (no numeric triple) aborts the whole call even
though `"v1.0.0"` in the same list is valid. -/
theorem C7_parse_witness :
    (sort_versions_ascending ["v1.0.0", "release-x"]).toOption = none ∧
    (github_release_version ["v1.0.0", "release-x"] "lte" ["1"] false true).toOption = none :=
  ⟨(C7_parse_all_or_nothing ["v1.0.0", "release-x"] "release-x" (by simp) rfl).1,
   (C7_parse_all_or_nothing ["v1.0.0", "release-x"] "release-x" (by simp) rfl).2
     "lte" ["1"] false true⟩

/-- C8 counterexample: contrary to the claim, `version_key_matcher` accepts
no leading `v`: the keys `"v1.0.0"` and `"v1"` fail to parse. -/
theorem C8_leading_v_rejected :
    parse_key "v1.0.0" = none ∧ parse_key "v1" = none :=
  ⟨rfl, rfl⟩

/-- C8 amended: `parse_key` accepts 1, 2 or 3 dot-separated numeric
components with an optional trailing `-decorator` on the last component, but
no leading `v` anywhere: every accepted key starts with a digit, and
`"v1"`/`"v1.0.0"` fail with a parse error. -/
theorem C8_key_grammar :
    (∀ (s : String) (k : PartialKey), parse_key s = some k →
      (s.data.headD ' ').isDigit = true ∧ s ≠ "") ∧
    parse_key "1" = some ⟨1, none, none, none⟩ ∧
    parse_key "1.2" = some ⟨1, some 2, none, none⟩ ∧
    parse_key "1.2.3" = some ⟨1, some 2, some 3, none⟩ ∧
    parse_key "1.2.3-rc1" = some ⟨1, some 2, some 3, some "rc1"⟩ ∧
    parse_key "v1" = none ∧ parse_key "v1.0.0" = none :=
  ⟨parse_key_head_digit, rfl, rfl, rfl, rfl, rfl, rfl⟩

/-- C8 witness: the digit-start property extracted for the accepted key
`"1"`. -/
theorem C8_key_grammar_witness :
    ((("1" : String).data.headD ' ').isDigit = true ∧ ("1" : String) ≠ "") ∧
    parse_key "1" = some ⟨1, none, none, none⟩ :=
  ⟨C8_key_grammar.1 "1" ⟨1, none, none, none⟩ rfl, C8_key_grammar.2.1⟩

/-- C9: the key-parse failure messages do not carry what the claim says:
`match_gte` and `match_lte` blame the `eq` operator, and `match_eq`
interpolates `None` (the rebound match object) instead of the key the
caller supplied. -/
theorem C9_error_messages :
    match_gte [] "abc" = Except.error "match key (abc) is not valid for 'eq' operator" ∧
    match_lte [] "abc" = Except.error "match key (abc) is not valid for 'eq' operator" ∧
    match_eq [] "abc" = Except.error "match key (None) is not valid for 'eq' operator" :=
  ⟨rfl, rfl, rfl⟩

/-- C10: on an empty input list `github_release_version` returns `[]` before
any other validation, for every criteria string, argument count, key and
flag combination. -/
theorem C10_empty_input_short_circuits (criteria : String) (args : List String)
    (include_decorated_versions normalize : Bool) :
    github_release_version [] criteria args include_decorated_versions normalize =
      Except.ok [] := rfl

end GithubReleaseVersion
